import Mathlib

/-!
Verification development for the DSO-FinalProject core:
shallow embedding of `TDoACalculation.py`, `TrackerModel.py`,
`TargetModel.py` and `TrajectoryGenerator.py` over the reals,
with theorems settling the specified properties.
-/

noncomputable section

/-- Euclidean norm of a 2D vector, the embedding of `np.linalg.norm` on
a 2-vector. -/
def norm2 (p : ℝ × ℝ) : ℝ := Real.sqrt (p.1 ^ 2 + p.2 ^ 2)

/-- Embedding of `TDoACalculation.hyperbolic_discretization`: the list
`arcsinh (sinh (min range) + i * delta)` for `i = 0 .. samples-1`, where
`delta = (sinh (max range) - sinh (min range)) / (samples - 1)`. -/
def hyperbolic_discretization (parameter_range : ℝ × ℝ) (samples : ℕ) : List ℝ :=
  let y_pos_min := Real.sinh (min parameter_range.1 parameter_range.2)
  let y_pos_max := Real.sinh (max parameter_range.1 parameter_range.2)
  let delta := (y_pos_max - y_pos_min) / ((samples : ℝ) - 1)
  (List.range samples).map fun i : ℕ => Real.arsinh (y_pos_min + (i : ℝ) * delta)

/-- State of a `TDoACalculation` instance: the parameter table cached by
`__init__`. -/
structure TDoACalculation where
  hyperbolic_parameters : List ℝ

/-- Embedding of `TDoACalculation.__init__`: caches the discretization of the
symmetric range `(-parameter_max, parameter_max)`. -/
def TDoACalculation.mk_init (parameter_max : ℝ) (discretization_step : ℕ) : TDoACalculation :=
  ⟨hyperbolic_discretization (-parameter_max, parameter_max) discretization_step⟩

/-- The parameter table of a solver built with `mk_init`. -/
def hyperbolic_parameter_table (parameter_max : ℝ) (samples : ℕ) : List ℝ :=
  (TDoACalculation.mk_init parameter_max samples).hyperbolic_parameters

/-- Closed form of the entries of the cached table. -/
def table_entry (parameter_max : ℝ) (samples : ℕ) (i : ℕ) : ℝ :=
  Real.arsinh (Real.sinh (-parameter_max) +
    (i : ℝ) * ((Real.sinh parameter_max - Real.sinh (-parameter_max)) / ((samples : ℝ) - 1)))

lemma table_length (parameter_max : ℝ) (samples : ℕ) :
    (hyperbolic_parameter_table parameter_max samples).length = samples := by
  simp [hyperbolic_parameter_table, TDoACalculation.mk_init, hyperbolic_discretization]

lemma table_getD (parameter_max : ℝ) (samples : ℕ) (hp : 0 < parameter_max)
    (i : ℕ) (hi : i < samples) :
    (hyperbolic_parameter_table parameter_max samples).getD i 0 =
      table_entry parameter_max samples i := by
  have hmin : min (-parameter_max) parameter_max = -parameter_max :=
    min_eq_left (by linarith)
  have hmax : max (-parameter_max) parameter_max = parameter_max :=
    max_eq_right (by linarith)
  simp only [hyperbolic_parameter_table, TDoACalculation.mk_init, hyperbolic_discretization,
    hmin, hmax, table_entry]
  rw [List.getD_eq_getElem?_getD, List.getElem?_map, List.getElem?_range hi]
  rfl

lemma table_entry_sinh (parameter_max : ℝ) (samples : ℕ) (i : ℕ) :
    Real.sinh (table_entry parameter_max samples i) =
      Real.sinh (-parameter_max) +
        (i : ℝ) * ((Real.sinh parameter_max - Real.sinh (-parameter_max)) / ((samples : ℝ) - 1)) := by
  simp [table_entry, Real.sinh_arsinh]

lemma table_delta_pos (parameter_max : ℝ) (samples : ℕ) (hp : 0 < parameter_max)
    (hs : 2 ≤ samples) :
    0 < (Real.sinh parameter_max - Real.sinh (-parameter_max)) / ((samples : ℝ) - 1) := by
  have h1 : Real.sinh (-parameter_max) < Real.sinh parameter_max :=
    Real.sinh_lt_sinh.mpr (by linarith)
  have h2 : (0 : ℝ) < (samples : ℝ) - 1 := by
    have : (2 : ℝ) ≤ (samples : ℝ) := by exact_mod_cast hs
    linarith
  exact div_pos (by linarith) h2

/-- C3: the parameter table cached at construction is strictly increasing,
runs from `-parameter_max` to `parameter_max`, and its entries have equal
increments of `sinh`, namely `(sinh pmax - sinh (-pmax)) / (samples - 1)`. -/
theorem discretization_density (parameter_max : ℝ) (samples : ℕ)
    (hp : 0 < parameter_max) (hs : 2 ≤ samples) :
    (hyperbolic_parameter_table parameter_max samples).length = samples ∧
    (hyperbolic_parameter_table parameter_max samples).getD 0 0 = -parameter_max ∧
    (hyperbolic_parameter_table parameter_max samples).getD (samples - 1) 0 = parameter_max ∧
    (∀ i j, i < j → j < samples →
      (hyperbolic_parameter_table parameter_max samples).getD i 0 <
        (hyperbolic_parameter_table parameter_max samples).getD j 0) ∧
    (∀ i, 0 < i → i < samples →
      Real.sinh ((hyperbolic_parameter_table parameter_max samples).getD i 0) -
        Real.sinh ((hyperbolic_parameter_table parameter_max samples).getD (i - 1) 0) =
      (Real.sinh parameter_max - Real.sinh (-parameter_max)) / ((samples : ℝ) - 1)) := by
  have hlen := table_length parameter_max samples
  refine ⟨hlen, ?_, ?_, ?_, ?_⟩
  · rw [table_getD parameter_max samples hp 0 (by omega)]
    simp [table_entry, Real.arsinh_sinh]
  · rw [table_getD parameter_max samples hp (samples - 1) (by omega)]
    have hcast : ((samples - 1 : ℕ) : ℝ) = (samples : ℝ) - 1 := by
      have : 1 ≤ samples := by omega
      push_cast [Nat.cast_sub this]
      ring
    have hne : ((samples : ℝ) - 1) ≠ 0 := by
      have : (2 : ℝ) ≤ (samples : ℝ) := by exact_mod_cast hs
      linarith
    rw [table_entry, hcast, mul_div_assoc', mul_comm, mul_div_assoc, div_self hne, mul_one]
    have : Real.sinh (-parameter_max) + (Real.sinh parameter_max - Real.sinh (-parameter_max)) =
        Real.sinh parameter_max := by ring
    rw [this, Real.arsinh_sinh]
  · intro i j hij hj
    rw [table_getD parameter_max samples hp i (by omega),
      table_getD parameter_max samples hp j hj]
    have hd := table_delta_pos parameter_max samples hp hs
    apply Real.arsinh_lt_arsinh.mpr
    have hij' : (i : ℝ) < (j : ℝ) := by exact_mod_cast hij
    nlinarith
  · intro i hi0 hi
    rw [table_getD parameter_max samples hp i hi,
      table_getD parameter_max samples hp (i - 1) (by omega)]
    rw [table_entry_sinh, table_entry_sinh]
    have hcast : ((i - 1 : ℕ) : ℝ) = (i : ℝ) - 1 := by
      have : 1 ≤ i := by omega
      push_cast [Nat.cast_sub this]
      ring
    rw [hcast]
    ring

/-- Closed witness for `discretization_density` at `parameter_max = 1`,
`samples = 2`. -/
theorem discretization_density_witness :
    (0 : ℝ) < 1 ∧ 2 ≤ 2 ∧
    ((hyperbolic_parameter_table 1 2).length = 2 ∧
    (hyperbolic_parameter_table 1 2).getD 0 0 = -1 ∧
    (hyperbolic_parameter_table 1 2).getD (2 - 1) 0 = 1 ∧
    (∀ i j, i < j → j < 2 →
      (hyperbolic_parameter_table 1 2).getD i 0 < (hyperbolic_parameter_table 1 2).getD j 0) ∧
    (∀ i, 0 < i → i < 2 →
      Real.sinh ((hyperbolic_parameter_table 1 2).getD i 0) -
        Real.sinh ((hyperbolic_parameter_table 1 2).getD (i - 1) 0) =
      (Real.sinh 1 - Real.sinh (-1)) / ((2 : ℝ) - 1))) :=
  ⟨one_pos, le_refl 2, discretization_density 1 2 one_pos (le_refl 2)⟩

/-- C10: the cached table is antisymmetric about zero: `t i = -(t (n-1-i))`,
and for odd `n` the middle entry is exactly `0`. -/
theorem discretization_antisymmetric (parameter_max : ℝ) (samples : ℕ)
    (hp : 0 < parameter_max) (hs : 2 ≤ samples) :
    (∀ i, i < samples →
      (hyperbolic_parameter_table parameter_max samples).getD i 0 =
        -((hyperbolic_parameter_table parameter_max samples).getD (samples - 1 - i) 0)) ∧
    (samples % 2 = 1 →
      (hyperbolic_parameter_table parameter_max samples).getD (samples / 2) 0 = 0) := by
  have key : ∀ i, i < samples →
      (hyperbolic_parameter_table parameter_max samples).getD i 0 =
        -((hyperbolic_parameter_table parameter_max samples).getD (samples - 1 - i) 0) := by
    intro i hi
    rw [table_getD parameter_max samples hp i hi,
      table_getD parameter_max samples hp (samples - 1 - i) (by omega)]
    rw [table_entry, table_entry, ← Real.arsinh_neg]
    congr 1
    have hcast : ((samples - 1 - i : ℕ) : ℝ) = (samples : ℝ) - 1 - (i : ℝ) := by
      have h1 : i ≤ samples - 1 := by omega
      have h2 : 1 ≤ samples := by omega
      push_cast [Nat.cast_sub h1, Nat.cast_sub h2]
      ring
    rw [hcast]
    have hne : ((samples : ℝ) - 1) ≠ 0 := by
      have : (2 : ℝ) ≤ (samples : ℝ) := by exact_mod_cast hs
      linarith
    have hodd : Real.sinh (-parameter_max) = -Real.sinh parameter_max := Real.sinh_neg parameter_max
    field_simp
    ring
  refine ⟨key, ?_⟩
  intro hodd
  have hmid : samples - 1 - samples / 2 = samples / 2 := by omega
  have := key (samples / 2) (by omega)
  rw [hmid] at this
  linarith

/-- Closed witness for `discretization_antisymmetric` at `parameter_max = 1`,
`samples = 3`. -/
theorem discretization_antisymmetric_witness :
    (0 : ℝ) < 1 ∧ 2 ≤ 3 ∧
    ((∀ i, i < 3 →
      (hyperbolic_parameter_table 1 3).getD i 0 =
        -((hyperbolic_parameter_table 1 3).getD (3 - 1 - i) 0)) ∧
    (3 % 2 = 1 → (hyperbolic_parameter_table 1 3).getD (3 / 2) 0 = 0)) :=
  ⟨one_pos, by omega, discretization_antisymmetric 1 3 one_pos (by omega)⟩

/-- Application of a 3x3 homogeneous transformation matrix to a single 2D
point: multiply `T` by `(x, y, 1)` and keep the first two rows, exactly the
per-point arithmetic of `convert2inertial`. -/
def apply_homogeneous (T : Matrix (Fin 3) (Fin 3) ℝ) (p : ℝ × ℝ) : ℝ × ℝ :=
  (T 0 0 * p.1 + T 0 1 * p.2 + T 0 2, T 1 0 * p.1 + T 1 1 * p.2 + T 1 2)

/-- Embedding of `TDoACalculation.convert2inertial`: stack the two series,
lift to homogeneous coordinates, apply `T`, and return the transformed
x-series and y-series. -/
def convert2inertial (T : Matrix (Fin 3) (Fin 3) ℝ) (x_series y_series : List ℝ) :
    List ℝ × List ℝ :=
  let transformed := (x_series.zip y_series).map (apply_homogeneous T)
  (transformed.map Prod.fst, transformed.map Prod.snd)

/-- Embedding of `TDoACalculation.find_transformation_matrix`: origin at the
midpoint, local x-axis toward `point_1`, y-axis the x-axis rotated by -90
degrees, rotation `R = column_stack (v_x, v_y)`, translation `T = -R ⬝ origin`;
the returned matrix is the inverse `[[Rᵀ, -Rᵀ T]; [0, 0, 1]]`. -/
def find_transformation_matrix (point_1 point_2 : ℝ × ℝ) : Matrix (Fin 3) (Fin 3) ℝ :=
  let origin : ℝ × ℝ := ((point_1.1 + point_2.1) / 2, (point_1.2 + point_2.2) / 2)
  let v0 : ℝ × ℝ := (point_1.1 - origin.1, point_1.2 - origin.2)
  let v_x : ℝ × ℝ := (v0.1 / norm2 v0, v0.2 / norm2 v0)
  let v_y : ℝ × ℝ := (v_x.2, -v_x.1)
  let t0 : ℝ := -(v_x.1 * origin.1 + v_y.1 * origin.2)
  let t1 : ℝ := -(v_x.2 * origin.1 + v_y.2 * origin.2)
  !![v_x.1, v_x.2, -(v_x.1 * t0 + v_x.2 * t1);
     v_y.1, v_y.2, -(v_y.1 * t0 + v_y.2 * t1);
     0, 0, 1]

/-- Modelled from the spec: the inertial-to-local rigid transform (origin at
the midpoint of the two tracker positions, unit x-axis from the midpoint
toward `point_1`, y-axis the x-axis rotated by -90 degrees), i.e. the map the
returned matrix is documented to invert. -/
def toLocalFrame (point_1 point_2 q : ℝ × ℝ) : ℝ × ℝ :=
  let origin : ℝ × ℝ := ((point_1.1 + point_2.1) / 2, (point_1.2 + point_2.2) / 2)
  let v0 : ℝ × ℝ := (point_1.1 - origin.1, point_1.2 - origin.2)
  let v_x : ℝ × ℝ := (v0.1 / norm2 v0, v0.2 / norm2 v0)
  let v_y : ℝ × ℝ := (v_x.2, -v_x.1)
  (v_x.1 * (q.1 - origin.1) + v_x.2 * (q.2 - origin.2),
   v_y.1 * (q.1 - origin.1) + v_y.2 * (q.2 - origin.2))

/-- C4: composing the inertial-to-local transform with the matrix returned by
`find_transformation_matrix` (applied the way `convert2inertial` applies it)
is the identity on every point, for distinct tracker positions. -/
theorem transform_round_trip (p1 p2 q : ℝ × ℝ) (h : p1 ≠ p2) :
    apply_homogeneous (find_transformation_matrix p1 p2) (toLocalFrame p1 p2 q) = q := by
  have hsum : 0 < (p1.1 - (p1.1 + p2.1) / 2) ^ 2 + (p1.2 - (p1.2 + p2.2) / 2) ^ 2 := by
    rcases lt_or_le 0 ((p1.1 - (p1.1 + p2.1) / 2) ^ 2 + (p1.2 - (p1.2 + p2.2) / 2) ^ 2) with hlt | hle
    · exact hlt
    · exfalso
      apply h
      have h1 : (p1.1 - (p1.1 + p2.1) / 2) ^ 2 = 0 := by
        nlinarith [sq_nonneg (p1.1 - (p1.1 + p2.1) / 2), sq_nonneg (p1.2 - (p1.2 + p2.2) / 2)]
      have h2 : (p1.2 - (p1.2 + p2.2) / 2) ^ 2 = 0 := by
        nlinarith [sq_nonneg (p1.1 - (p1.1 + p2.1) / 2), sq_nonneg (p1.2 - (p1.2 + p2.2) / 2)]
      have h1' : p1.1 = p2.1 := by
        have := pow_eq_zero_iff (n := 2) (by omega) |>.mp h1
        linarith
      have h2' : p1.2 = p2.2 := by
        have := pow_eq_zero_iff (n := 2) (by omega) |>.mp h2
        linarith
      exact Prod.ext h1' h2'
  simp only [apply_homogeneous, find_transformation_matrix, toLocalFrame, norm2,
    Matrix.of_apply, Matrix.cons_val', Matrix.cons_val_zero, Matrix.cons_val_one,
    Matrix.head_cons, Matrix.empty_val', Matrix.cons_val_fin_one, Matrix.head_fin_const,
    Matrix.cons_val_two, Matrix.tail_cons]
  set a := p1.1 - (p1.1 + p2.1) / 2 with ha
  set b := p1.2 - (p1.2 + p2.2) / 2 with hb
  set n := Real.sqrt (a ^ 2 + b ^ 2) with hn
  have hn2 : n ^ 2 = a ^ 2 + b ^ 2 := Real.sq_sqrt (by positivity)
  have hnpos : 0 < n := Real.sqrt_pos.mpr hsum
  have hne : n ≠ 0 := ne_of_gt hnpos
  apply Prod.ext
  · field_simp
    linear_combination (-2) * q.1 * hn2
  · field_simp
    linear_combination (-2) * q.2 * hn2

/-- Closed witness for `transform_round_trip` at trackers `(1,0)`, `(-1,0)`
and point `(3,4)`. -/
theorem transform_round_trip_witness :
    ((1 : ℝ), (0 : ℝ)) ≠ ((-1 : ℝ), (0 : ℝ)) ∧
    apply_homogeneous (find_transformation_matrix (1, 0) (-1, 0))
      (toLocalFrame (1, 0) (-1, 0) (3, 4)) = (3, 4) :=
  ⟨by norm_num [Prod.ext_iff],
   transform_round_trip (1, 0) (-1, 0) (3, 4) (by norm_num [Prod.ext_iff])⟩

/-- Embedding of `TDoACalculation.find_range_diff`: signed range difference
from the first receiver to the second. -/
def find_range_diff (pos_target pos_tracker_1 pos_tracker_2 : ℝ × ℝ) : ℝ :=
  norm2 (pos_target - pos_tracker_1) - norm2 (pos_target - pos_tracker_2)

/-- Embedding of `TDoACalculation.calculate_semiaxis`:
`a² = (range_diff/2)²`, `b² = (tracker_distance/2)² - a²`. -/
def calculate_semiaxis (range_difference tracker_distance : ℝ) : ℝ × ℝ :=
  let a_square := (0.5 * range_difference) ^ 2
  let b_square := (0.5 * tracker_distance) ^ 2 - a_square
  (a_square, b_square)

/-- Embedding of `TDoACalculation.hyperbolic_solution`: local-frame hyperbola
points `x = √a² cosh t`, `y = √b² sinh t` over the cached parameter table,
with the x-series negated when the first tracker is not the nearest. -/
def hyperbolic_solution (self : TDoACalculation) (a_square b_square : ℝ)
    (fist_tracker_nearest : Bool) : List ℝ × List ℝ :=
  let solution_x := self.hyperbolic_parameters.map fun t => Real.sqrt a_square * Real.cosh t
  let solution_y := self.hyperbolic_parameters.map fun t => Real.sqrt b_square * Real.sinh t
  (if fist_tracker_nearest then solution_x else solution_x.map fun x => -x, solution_y)

/-- The local-frame solution exactly as assembled inside
`find_hyperbolic_solution` (before the inverse frame transform): semiaxes from
the signed range difference and the tracker distance, branch selected by
`range_diff < 0`. -/
def local_solution (self : TDoACalculation)
    (pos_target pos_tracker_1 pos_tracker_2 : ℝ × ℝ) : List ℝ × List ℝ :=
  hyperbolic_solution self
    (calculate_semiaxis (find_range_diff pos_target pos_tracker_1 pos_tracker_2)
      (norm2 (pos_tracker_1 - pos_tracker_2))).1
    (calculate_semiaxis (find_range_diff pos_target pos_tracker_1 pos_tracker_2)
      (norm2 (pos_tracker_1 - pos_tracker_2))).2
    (decide (find_range_diff pos_target pos_tracker_1 pos_tracker_2 < 0))

/-- Embedding of `TDoACalculation.find_hyperbolic_solution`: range difference,
semiaxes, local-frame branch (tracker 1 is the nearest iff `range_diff < 0`),
then conversion to the inertial frame. -/
def find_hyperbolic_solution (self : TDoACalculation)
    (pos_target pos_tracker_1 pos_tracker_2 : ℝ × ℝ) : List ℝ × List ℝ :=
  let sol := local_solution self pos_target pos_tracker_1 pos_tracker_2
  let transform_matrix := find_transformation_matrix pos_tracker_1 pos_tracker_2
  convert2inertial transform_matrix sol.1 sol.2

/-- C2: the local-frame x-series produced inside `find_hyperbolic_solution`
is entirely non-positive when `range_diff ≥ 0` (tracker 1 farther) and
entirely non-negative when `range_diff < 0` (tracker 1 nearer): the branch
opens toward the nearer tracker. -/
theorem range_difference_sign (self : TDoACalculation)
    (pos_target pos_tracker_1 pos_tracker_2 : ℝ × ℝ)
    (hne : pos_tracker_1 ≠ pos_tracker_2) :
    (0 ≤ find_range_diff pos_target pos_tracker_1 pos_tracker_2 →
      ∀ x ∈ (local_solution self pos_target pos_tracker_1 pos_tracker_2).1, x ≤ 0) ∧
    (find_range_diff pos_target pos_tracker_1 pos_tracker_2 < 0 →
      ∀ x ∈ (local_solution self pos_target pos_tracker_1 pos_tracker_2).1, 0 ≤ x) := by
  constructor
  · intro hr x hx
    have hb : decide (find_range_diff pos_target pos_tracker_1 pos_tracker_2 < 0) = false :=
      decide_eq_false (not_lt.mpr hr)
    simp only [local_solution, hyperbolic_solution, hb, Bool.false_eq_true, if_false,
      List.map_map, List.mem_map] at hx
    obtain ⟨t, _, rfl⟩ := hx
    simp only [Function.comp_apply, neg_nonpos]
    exact mul_nonneg (Real.sqrt_nonneg _) (le_of_lt (Real.cosh_pos t))
  · intro hr x hx
    have hb : decide (find_range_diff pos_target pos_tracker_1 pos_tracker_2 < 0) = true :=
      decide_eq_true hr
    simp only [local_solution, hyperbolic_solution, hb, if_true, List.mem_map] at hx
    obtain ⟨t, _, rfl⟩ := hx
    exact mul_nonneg (Real.sqrt_nonneg _) (le_of_lt (Real.cosh_pos t))

/-- Closed witness for `range_difference_sign` with trackers `(0,0)`, `(1,0)`
and target `(0,0)`. -/
theorem range_difference_sign_witness :
    ((0 : ℝ), (0 : ℝ)) ≠ ((1 : ℝ), (0 : ℝ)) ∧
    ((0 ≤ find_range_diff (0, 0) (0, 0) (1, 0) →
      ∀ x ∈ (local_solution (TDoACalculation.mk_init 1 3) (0, 0) (0, 0) (1, 0)).1, x ≤ 0) ∧
    (find_range_diff (0, 0) (0, 0) (1, 0) < 0 →
      ∀ x ∈ (local_solution (TDoACalculation.mk_init 1 3) (0, 0) (0, 0) (1, 0)).1, 0 ≤ x)) :=
  ⟨by norm_num [Prod.ext_iff],
   range_difference_sign (TDoACalculation.mk_init 1 3) (0, 0) (0, 0) (1, 0)
     (by norm_num [Prod.ext_iff])⟩

/-- C9 counterexample: at the degenerate input with coincident trackers
(`b² ≤ 0` geometry), `find_hyperbolic_solution` does not fail: it returns a
full-length point sequence (3 points for a 3-sample solver). -/
theorem degenerate_geometry_cex :
    (find_hyperbolic_solution (TDoACalculation.mk_init 1 3) (1, 0) (0, 0) (0, 0)).1.length = 3 ∧
    (find_hyperbolic_solution (TDoACalculation.mk_init 1 3) (1, 0) (0, 0) (0, 0)).2.length = 3 := by
  have hlen : (TDoACalculation.mk_init 1 3).hyperbolic_parameters.length = 3 := by
    simp [TDoACalculation.mk_init, hyperbolic_discretization]
  constructor <;>
  · simp only [find_hyperbolic_solution, convert2inertial, local_solution, hyperbolic_solution,
      List.length_map, List.length_zip]
    cases hb : decide (find_range_diff (1, 0) (0, 0) (0, 0) < 0) <;>
      simp [hlen]

/-- C9 amended: `find_hyperbolic_solution` performs no degeneracy validation;
on every input (degenerate geometry included) it returns coordinate series
whose length equals the cached parameter table's length. -/
theorem find_hyperbolic_solution_total (self : TDoACalculation)
    (pos_target pos_tracker_1 pos_tracker_2 : ℝ × ℝ) :
    (find_hyperbolic_solution self pos_target pos_tracker_1 pos_tracker_2).1.length =
      self.hyperbolic_parameters.length ∧
    (find_hyperbolic_solution self pos_target pos_tracker_1 pos_tracker_2).2.length =
      self.hyperbolic_parameters.length := by
  constructor <;>
  · simp only [find_hyperbolic_solution, convert2inertial, local_solution, hyperbolic_solution,
      List.length_map, List.length_zip]
    cases hb : decide (find_range_diff pos_target pos_tracker_1 pos_tracker_2 < 0) <;>
      simp

/-- Right-hand side of the differential-drive kinematic model defined in
`TrackerModel.__init__`: `(v cos θ, v sin θ, ω)` for state `(x, y, θ)` and
control `(v, ω)`. -/
def kin_rhs (state : ℝ × ℝ × ℝ) (control : ℝ × ℝ) : ℝ × ℝ × ℝ :=
  (control.1 * Real.cos state.2.2, control.1 * Real.sin state.2.2, control.2)

/-- Embedding of `TrackerModel.create_constraints`: constraint 0 is
`X₀ - state_init`; constraint `k+1` is `X_{k+1} - (X_k + Δt · rhs(X_k, U_k))`
for `k = 0 .. horizon-1`. -/
def create_constraints (horizon : ℕ) (time_discrete : ℝ) (state_init : ℝ × ℝ × ℝ)
    (prediction_state : ℕ → ℝ × ℝ × ℝ) (prediction_control : ℕ → ℝ × ℝ) :
    List (ℝ × ℝ × ℝ) :=
  (prediction_state 0 - state_init) ::
    (List.range horizon).map fun step =>
      prediction_state (step + 1) -
        (prediction_state step +
          time_discrete • kin_rhs (prediction_state step) (prediction_control step))

/-- Explicit-Euler forward replay of the kinematic prediction from the
initial state with the given controls. -/
def euler_replay (time_discrete : ℝ) (state_init : ℝ × ℝ × ℝ) (control : ℕ → ℝ × ℝ) :
    ℕ → ℝ × ℝ × ℝ
  | 0 => state_init
  | k + 1 => euler_replay time_discrete state_init control k +
      time_discrete • kin_rhs (euler_replay time_discrete state_init control k) (control k)

/-- C1: any assignment to the predicted states and controls that zeroes all
`N+1` equality constraints of `create_constraints` has `X₀` equal to the
supplied initial state, satisfies the one-step Euler relation at every step,
and is reproduced exactly by replaying the kinematic prediction forward. -/
theorem multiple_shooting_consistency (horizon : ℕ) (hh : 1 ≤ horizon) (dt : ℝ)
    (state_init : ℝ × ℝ × ℝ) (X : ℕ → ℝ × ℝ × ℝ) (U : ℕ → ℝ × ℝ)
    (h : ∀ c ∈ create_constraints horizon dt state_init X U, c = 0) :
    X 0 = state_init ∧
    (∀ k < horizon, X (k + 1) = X k + dt • kin_rhs (X k) (U k)) ∧
    (∀ k ≤ horizon, X k = euler_replay dt state_init U k) := by
  have h0 : X 0 = state_init := by
    have := h (X 0 - state_init) (List.mem_cons_self _ _)
    exact sub_eq_zero.mp this
  have hstep : ∀ k < horizon, X (k + 1) = X k + dt • kin_rhs (X k) (U k) := by
    intro k hk
    have hmem : (X (k + 1) - (X k + dt • kin_rhs (X k) (U k))) ∈
        create_constraints horizon dt state_init X U :=
      List.mem_cons_of_mem _ (List.mem_map.mpr ⟨k, List.mem_range.mpr hk, rfl⟩)
    exact sub_eq_zero.mp (h _ hmem)
  refine ⟨h0, hstep, ?_⟩
  intro k hk
  induction k with
  | zero => simpa [euler_replay] using h0
  | succ n ih =>
    have hn : n < horizon := by omega
    rw [hstep n hn, ih (by omega)]
    simp [euler_replay]

/-- Closed witness for `multiple_shooting_consistency`: horizon 1, unit time
step, zero initial state, identically zero predicted states and controls. -/
theorem multiple_shooting_consistency_witness :
    1 ≤ 1 ∧
    (∀ c ∈ create_constraints 1 1 ((0 : ℝ), (0 : ℝ), (0 : ℝ))
        (fun _ => ((0 : ℝ), (0 : ℝ), (0 : ℝ))) (fun _ => ((0 : ℝ), (0 : ℝ))), c = 0) ∧
    ((fun _ => ((0 : ℝ), (0 : ℝ), (0 : ℝ))) 0 = ((0 : ℝ), (0 : ℝ), (0 : ℝ)) ∧
     (∀ k < 1, (fun _ => ((0 : ℝ), (0 : ℝ), (0 : ℝ))) (k + 1) =
        (fun _ => ((0 : ℝ), (0 : ℝ), (0 : ℝ))) k +
          (1 : ℝ) • kin_rhs ((fun _ => ((0 : ℝ), (0 : ℝ), (0 : ℝ))) k)
            ((fun _ => ((0 : ℝ), (0 : ℝ))) k)) ∧
     (∀ k ≤ 1, (fun _ => ((0 : ℝ), (0 : ℝ), (0 : ℝ))) k =
        euler_replay 1 ((0 : ℝ), (0 : ℝ), (0 : ℝ)) (fun _ => ((0 : ℝ), (0 : ℝ))) k)) := by
  have hcon : ∀ c ∈ create_constraints 1 1 ((0 : ℝ), (0 : ℝ), (0 : ℝ))
      (fun _ => ((0 : ℝ), (0 : ℝ), (0 : ℝ))) (fun _ => ((0 : ℝ), (0 : ℝ))), c = 0 := by
    intro c hc
    rcases List.mem_cons.mp hc with rfl | hc'
    · simp [Prod.ext_iff]
    · obtain ⟨s, _, rfl⟩ := List.mem_map.mp hc'
      simp [kin_rhs, Prod.ext_iff]
  exact ⟨le_refl 1, hcon,
    multiple_shooting_consistency 1 (le_refl 1) 1 ((0 : ℝ), (0 : ℝ), (0 : ℝ)) _ _ hcon⟩

/-- One numpy slice assignment `v[start : stop : step] = value` over an
index-to-value map. -/
def slice_assign (v : ℕ → EReal) (start stop stride : ℕ) (value : EReal) : ℕ → EReal :=
  fun j => if start ≤ j ∧ j < stop ∧ (j - start) % stride = 0 then value else v j

/-- Shape of the lower-bound vector allocated by `get_state_limits`:
`st_size * (horizon + 1) + ctrl_size * horizon` with `st_size = 3`,
`ctrl_size = 2`. -/
def state_limits_size (horizon : ℕ) : ℕ := 3 * (horizon + 1) + 2 * horizon

/-- Shape of the upper-bound vector allocated by `get_state_limits`
(written `ctrl_size * horizon + st_size * (horizon + 1)` in the source). -/
def state_limits_size_upper (horizon : ℕ) : ℕ := 2 * horizon + 3 * (horizon + 1)

/-- Embedding of the lower-bound vector of `TrackerModel.get_state_limits`:
start from zeros and perform the five slice assignments of the source in
order (x, y, φ state rows to `-inf`; then linear / angular control rows to
the range minima). -/
def get_state_limits_lower (horizon : ℕ) (linear_velocity angular_velocity : ℝ × ℝ) :
    ℕ → EReal :=
  slice_assign (slice_assign (slice_assign (slice_assign (slice_assign (fun _ => 0)
    0 (3 * horizon + 1 + 0) 3 ⊥)
    1 (3 * horizon + 1 + 1) 3 ⊥)
    2 (3 * horizon + 1 + 2) 3 ⊥)
    (3 * (horizon + 1) + 0) (3 * (horizon + 1) + 2 * horizon) 2
      ((min linear_velocity.1 linear_velocity.2 : ℝ) : EReal))
    (3 * (horizon + 1) + 1) (3 * (horizon + 1) + 2 * horizon) 2
      ((min angular_velocity.1 angular_velocity.2 : ℝ) : EReal)

/-- Embedding of the upper-bound vector of `TrackerModel.get_state_limits`:
same slices with `+inf` and the range maxima. -/
def get_state_limits_upper (horizon : ℕ) (linear_velocity angular_velocity : ℝ × ℝ) :
    ℕ → EReal :=
  slice_assign (slice_assign (slice_assign (slice_assign (slice_assign (fun _ => 0)
    0 (3 * horizon + 1 + 0) 3 ⊤)
    1 (3 * horizon + 1 + 1) 3 ⊤)
    2 (3 * horizon + 1 + 2) 3 ⊤)
    (3 * (horizon + 1) + 0) (3 * (horizon + 1) + 2 * horizon) 2
      ((max linear_velocity.1 linear_velocity.2 : ℝ) : EReal))
    (3 * (horizon + 1) + 1) (3 * (horizon + 1) + 2 * horizon) 2
      ((max angular_velocity.1 angular_velocity.2 : ℝ) : EReal)

/-- C6: both bound vectors have length `3(N+1) + 2N`; every state entry is
`-inf` (lower) / `+inf` (upper); the control entries alternate linear-range
then angular-range minima (lower) and maxima (upper) across all N steps. -/
theorem bounds_layout (horizon : ℕ) (hh : 1 ≤ horizon)
    (linear_velocity angular_velocity : ℝ × ℝ) :
    state_limits_size horizon = 3 * (horizon + 1) + 2 * horizon ∧
    state_limits_size_upper horizon = 3 * (horizon + 1) + 2 * horizon ∧
    (∀ j < 3 * (horizon + 1),
      get_state_limits_lower horizon linear_velocity angular_velocity j = ⊥ ∧
      get_state_limits_upper horizon linear_velocity angular_velocity j = ⊤) ∧
    (∀ k < horizon,
      get_state_limits_lower horizon linear_velocity angular_velocity
          (3 * (horizon + 1) + 2 * k)
        = ((min linear_velocity.1 linear_velocity.2 : ℝ) : EReal) ∧
      get_state_limits_lower horizon linear_velocity angular_velocity
          (3 * (horizon + 1) + 2 * k + 1)
        = ((min angular_velocity.1 angular_velocity.2 : ℝ) : EReal) ∧
      get_state_limits_upper horizon linear_velocity angular_velocity
          (3 * (horizon + 1) + 2 * k)
        = ((max linear_velocity.1 linear_velocity.2 : ℝ) : EReal) ∧
      get_state_limits_upper horizon linear_velocity angular_velocity
          (3 * (horizon + 1) + 2 * k + 1)
        = ((max angular_velocity.1 angular_velocity.2 : ℝ) : EReal)) := by
  refine ⟨rfl, by simp [state_limits_size_upper]; ring, ?_, ?_⟩
  · intro j hj
    constructor <;>
    · simp only [get_state_limits_lower, get_state_limits_upper, slice_assign]
      rw [if_neg (by omega), if_neg (by omega)]
      have h3 : j % 3 = 0 ∨ j % 3 = 1 ∨ j % 3 = 2 := by omega
      rcases h3 with h3 | h3 | h3
      · rw [if_neg (by omega), if_neg (by omega), if_pos (by omega)]
      · rw [if_neg (by omega), if_pos (by omega)]
      · rw [if_pos (by omega)]
  · intro k hk
    refine ⟨?_, ?_, ?_, ?_⟩ <;>
    · simp only [get_state_limits_lower, get_state_limits_upper, slice_assign]
      first
      | rw [if_neg (by omega), if_pos (by omega)]
      | rw [if_pos (by omega)]

/-- Closed witness for `bounds_layout` at horizon 1 and ranges `(0,1)`,
`(-2,2)`. -/
theorem bounds_layout_witness :
    1 ≤ 1 ∧
    (state_limits_size 1 = 3 * (1 + 1) + 2 * 1 ∧
    state_limits_size_upper 1 = 3 * (1 + 1) + 2 * 1 ∧
    (∀ j < 3 * (1 + 1),
      get_state_limits_lower 1 ((0 : ℝ), (1 : ℝ)) ((-2 : ℝ), (2 : ℝ)) j = ⊥ ∧
      get_state_limits_upper 1 ((0 : ℝ), (1 : ℝ)) ((-2 : ℝ), (2 : ℝ)) j = ⊤) ∧
    (∀ k < 1,
      get_state_limits_lower 1 ((0 : ℝ), (1 : ℝ)) ((-2 : ℝ), (2 : ℝ)) (3 * (1 + 1) + 2 * k)
        = ((min (0 : ℝ) (1 : ℝ) : ℝ) : EReal) ∧
      get_state_limits_lower 1 ((0 : ℝ), (1 : ℝ)) ((-2 : ℝ), (2 : ℝ)) (3 * (1 + 1) + 2 * k + 1)
        = ((min (-2 : ℝ) (2 : ℝ) : ℝ) : EReal) ∧
      get_state_limits_upper 1 ((0 : ℝ), (1 : ℝ)) ((-2 : ℝ), (2 : ℝ)) (3 * (1 + 1) + 2 * k)
        = ((max (0 : ℝ) (1 : ℝ) : ℝ) : EReal) ∧
      get_state_limits_upper 1 ((0 : ℝ), (1 : ℝ)) ((-2 : ℝ), (2 : ℝ)) (3 * (1 + 1) + 2 * k + 1)
        = ((max (-2 : ℝ) (2 : ℝ) : ℝ) : EReal))) :=
  ⟨le_refl 1, bounds_layout 1 (le_refl 1) ((0 : ℝ), (1 : ℝ)) ((-2 : ℝ), (2 : ℝ))⟩

/-- State of a `TargetModel` as used by `update_tracker_position`: the
constant target velocity, the current path parameter, and the derivative
evaluator of the owned trajectory
(`self.trajectory.get_trajectory_derivative`). -/
structure TargetModel where
  target_velocity : ℝ
  current_parameter : ℝ
  trajectory_derivative : ℝ → ℝ × ℝ

/-- Embedding of `TargetModel.update_tracker_position`: if the current
parameter exceeds 1.0 it is set to 1.0; then (unconditionally) the parameter
is advanced by `target_velocity * delta_t / ‖derivative(parameter)‖`. -/
def update_tracker_position (self : TargetModel) (delta_t : ℝ) : TargetModel :=
  let clamped := if 1 < self.current_parameter then 1 else self.current_parameter
  let trajectory_derivative := self.trajectory_derivative clamped
  let parameter_delta := self.target_velocity * delta_t / norm2 trajectory_derivative
  { self with current_parameter := clamped + parameter_delta }

/-- C7 counterexample: for a model with parameter `2` (already past the end),
velocity `1`, unit-speed derivative, a call to `update_tracker_position` with
`delta_t = 1` does not leave the parameter at `1.0`: the Euler increment is
still applied after the clamp. -/
theorem advance_clamp_cex :
    (update_tracker_position ⟨1, 2, fun _ => (1, 0)⟩ 1).current_parameter ≠ 1 := by
  have h1 : norm2 ((1 : ℝ), (0 : ℝ)) = 1 := by
    rw [norm2]
    norm_num
  simp only [update_tracker_position]
  rw [if_pos (by norm_num : (1 : ℝ) < 2)]
  rw [h1]
  norm_num

/-- C7 amended: `update_tracker_position` first clamps a parameter exceeding
1.0 to exactly 1.0 and then, in every call (clamped or not), advances the
parameter by `target_velocity * delta_t / ‖derivative(u)‖` evaluated at the
(possibly clamped) parameter `u`; the two behaviors compose sequentially
rather than being mutually exclusive, and no re-normalization follows. -/
theorem advance_clamp_then_step (self : TargetModel) (delta_t : ℝ) :
    (1 < self.current_parameter →
      (update_tracker_position self delta_t).current_parameter =
        1 + self.target_velocity * delta_t / norm2 (self.trajectory_derivative 1)) ∧
    (¬ 1 < self.current_parameter →
      (update_tracker_position self delta_t).current_parameter =
        self.current_parameter + self.target_velocity * delta_t /
          norm2 (self.trajectory_derivative self.current_parameter)) := by
  constructor
  · intro h
    simp only [update_tracker_position]
    rw [if_pos h]
  · intro h
    simp only [update_tracker_position]
    rw [if_neg h]

/-- Closed witness for `advance_clamp_then_step` at the clamped branch. -/
theorem advance_clamp_then_step_witness :
    (1 : ℝ) < 2 ∧
    (update_tracker_position ⟨1, 2, fun _ => (1, 0)⟩ 1).current_parameter =
      1 + 1 * 1 / norm2 ((fun _ : ℝ => ((1 : ℝ), (0 : ℝ))) 1) :=
  ⟨by norm_num, (advance_clamp_then_step ⟨1, 2, fun _ => (1, 0)⟩ 1).1 (by norm_num)⟩

/-- `np.clip(a, lo, hi)` on integers: numpy computes `min (max a lo) hi`, so
the upper bound wins when `lo > hi`. -/
def np_clip (a lo hi : ℤ) : ℤ := min (max a lo) hi

/-- The knot vector built by `TrajectoryGenerator.generate_bspline` for
`count` control points and (already clamped) `degree`: `degree` zeros, the
integer run `0 .. count-degree`, `degree` copies of `count-degree`, all
normalized by `count-degree`. -/
def knot_vector (count degree : ℕ) : List ℝ :=
  (List.replicate degree (0 : ℝ) ++
    ((List.range (count - degree + 1)).map fun k : ℕ => (k : ℝ)) ++
    List.replicate degree ((count - degree : ℕ) : ℝ)).map
    fun x => x / ((count - degree : ℕ) : ℝ)

/-- Knot accessor (default 0 out of range; the basis recursion below only
reads indices `0 .. count+degree`). -/
def knotAt (count degree : ℕ) (j : ℕ) : ℝ := (knot_vector count degree).getD j 0


lemma knot_vector_length (c d : ℕ) :
    (knot_vector c d).length = d + (c - d + 1) + d := by
  simp [knot_vector]
  omega

lemma knotAt_left (c d j : ℕ) (h : j < d) : knotAt c d j = 0 := by
  simp only [knotAt, knot_vector, List.getD_eq_getElem?_getD, List.getElem?_map,
    List.getElem?_append, List.length_append, List.length_replicate, List.length_map,
    List.length_range, List.getElem?_replicate]
  rw [if_pos (by omega : j < d + (c - d + 1)), if_pos h, if_pos h]
  simp

lemma knotAt_mid (c d j : ℕ) (h1 : d ≤ j) (h2 : j ≤ c) :
    knotAt c d j = ((j - d : ℕ) : ℝ) / ((c - d : ℕ) : ℝ) := by
  simp only [knotAt, knot_vector, List.getD_eq_getElem?_getD, List.getElem?_map,
    List.getElem?_append, List.length_append, List.length_replicate, List.length_map,
    List.length_range, List.getElem?_replicate]
  rw [if_pos (by omega : j < d + (c - d + 1)), if_neg (by omega : ¬ j < d),
    List.getElem?_range (by omega : j - d < c - d + 1)]
  simp

lemma knotAt_hi (c d j : ℕ) (hd : d ≤ c) (h1 : c < j) (h2 : j < c + d + 1) :
    knotAt c d j = ((c - d : ℕ) : ℝ) / ((c - d : ℕ) : ℝ) := by
  simp only [knotAt, knot_vector, List.getD_eq_getElem?_getD, List.getElem?_map,
    List.getElem?_append, List.length_append, List.length_replicate, List.length_map,
    List.length_range, List.getElem?_replicate]
  rw [if_neg (by omega : ¬ j < d + (c - d + 1)),
    if_pos (by omega : j - (d + (c - d + 1)) < d)]
  simp

lemma knotAt_big (c d j : ℕ) (hd : d ≤ c) (h : c + d + 1 ≤ j) : knotAt c d j = 0 := by
  simp only [knotAt, knot_vector, List.getD_eq_getElem?_getD, List.getElem?_map,
    List.getElem?_append, List.length_append, List.length_replicate, List.length_map,
    List.length_range, List.getElem?_replicate]
  rw [if_neg (by omega : ¬ j < d + (c - d + 1)),
    if_neg (by omega : ¬ j - (d + (c - d + 1)) < d)]
  simp

lemma knot_m_pos (c d : ℕ) (hdc : d < c) : (0 : ℝ) < ((c - d : ℕ) : ℝ) := by
  have : 1 ≤ c - d := by omega
  exact_mod_cast Nat.lt_of_lt_of_le Nat.zero_lt_one this

lemma knot_nonneg (c d j : ℕ) (hdc : d < c) : 0 ≤ knotAt c d j := by
  have hm := knot_m_pos c d hdc
  rcases Nat.lt_or_ge j d with h | h
  · rw [knotAt_left c d j h]
  · rcases Nat.lt_or_ge c j with h2 | h2
    · rcases Nat.lt_or_ge j (c + d + 1) with h3 | h3
      · rw [knotAt_hi c d j (by omega) h2 h3]
        positivity
      · rw [knotAt_big c d j (by omega) h3]
    · rw [knotAt_mid c d j h h2]
      positivity

lemma knot_le_one (c d j : ℕ) (hdc : d < c) : knotAt c d j ≤ 1 := by
  have hm := knot_m_pos c d hdc
  rcases Nat.lt_or_ge j d with h | h
  · rw [knotAt_left c d j h]
    norm_num
  · rcases Nat.lt_or_ge c j with h2 | h2
    · rcases Nat.lt_or_ge j (c + d + 1) with h3 | h3
      · rw [knotAt_hi c d j (by omega) h2 h3, div_self (ne_of_gt hm)]
      · rw [knotAt_big c d j (by omega) h3]
        norm_num
    · rw [knotAt_mid c d j h h2]
      rw [div_le_one hm]
      exact_mod_cast Nat.sub_le_sub_right h2 d

lemma knot_zero_iff (c d j : ℕ) (hdc : d < c) :
    knotAt c d j = 0 ↔ j ≤ d ∨ c + d + 1 ≤ j := by
  have hm := knot_m_pos c d hdc
  constructor
  · intro h0
    by_contra hc
    push_neg at hc
    obtain ⟨hj1, hj2⟩ := hc
    rcases Nat.lt_or_ge c j with h2 | h2
    · rw [knotAt_hi c d j (by omega) h2 hj2, div_self (ne_of_gt hm)] at h0
      norm_num at h0
    · rw [knotAt_mid c d j (by omega) h2] at h0
      have : (0 : ℝ) < ((j - d : ℕ) : ℝ) := by
        have : 1 ≤ j - d := by omega
        exact_mod_cast Nat.lt_of_lt_of_le Nat.zero_lt_one this
      have := div_pos this hm
      linarith
  · intro h
    rcases h with h | h
    · rcases Nat.lt_or_ge j d with h1 | h1
      · exact knotAt_left c d j h1
      · have : j = d := by omega
        rw [this, knotAt_mid c d d le_rfl (by omega)]
        simp
    · exact knotAt_big c d j (by omega) h

lemma knot_one_iff (c d j : ℕ) (hdc : d < c) :
    knotAt c d j = 1 ↔ c ≤ j ∧ j < c + d + 1 := by
  have hm := knot_m_pos c d hdc
  constructor
  · intro h1
    rcases Nat.lt_or_ge j d with h | h
    · rw [knotAt_left c d j h] at h1
      norm_num at h1
    · rcases Nat.lt_or_ge c j with h2 | h2
      · rcases Nat.lt_or_ge j (c + d + 1) with h3 | h3
        · exact ⟨by omega, h3⟩
        · rw [knotAt_big c d j (by omega) h3] at h1
          norm_num at h1
      · rw [knotAt_mid c d j h h2, div_eq_one_iff_eq (ne_of_gt hm)] at h1
        have : j - d = c - d := by exact_mod_cast h1
        exact ⟨by omega, by omega⟩
  · intro ⟨h2, h3⟩
    rcases Nat.lt_or_ge c j with h4 | h4
    · rw [knotAt_hi c d j (by omega) h4 h3, div_self (ne_of_gt hm)]
    · have : j = c := by omega
      rw [this, knotAt_mid c d c (by omega) le_rfl, div_self (ne_of_gt hm)]

lemma knot_d_succ (c d : ℕ) (hdc : d < c) :
    knotAt c d (d + 1) = 1 / ((c - d : ℕ) : ℝ) := by
  rw [knotAt_mid c d (d + 1) (by omega) (by omega)]
  norm_num

lemma knot_d_succ_pos (c d : ℕ) (hdc : d < c) : 0 < knotAt c d (d + 1) := by
  rw [knot_d_succ c d hdc]
  exact div_pos one_pos (knot_m_pos c d hdc)

lemma knot_c_pred (c d : ℕ) (hd1 : 1 ≤ d) (hdc : d < c) :
    knotAt c d (c - 1) = ((c - 1 - d : ℕ) : ℝ) / ((c - d : ℕ) : ℝ) := by
  exact knotAt_mid c d (c - 1) (by omega) (by omega)

lemma knot_c_pred_lt_one (c d : ℕ) (hd1 : 1 ≤ d) (hdc : d < c) :
    knotAt c d (c - 1) < 1 := by
  rw [knot_c_pred c d hd1 hdc, div_lt_one (knot_m_pos c d hdc)]
  have : c - 1 - d < c - d := by omega
  exact_mod_cast this

/-- Cox-de Boor basis recursion with the 0/0 := 0 convention, the evaluation
rule of the `si.BSpline` object built by `generate_bspline`; the `t_end`
clause reproduces the library treating the last non-empty knot interval as
closed at the right end of the domain, so the curve is defined at the
boundary parameter itself. -/
def bspline_basis (t : ℕ → ℝ) (t_end : ℝ) : ℕ → ℕ → ℝ → ℝ
  | 0, i, u =>
    if (t i ≤ u ∧ u < t (i + 1)) ∨ (u = t_end ∧ t i < t (i + 1) ∧ t (i + 1) = t_end)
    then 1 else 0
  | p + 1, i, u =>
    (if t (i + p + 1) = t i then 0
     else (u - t i) / (t (i + p + 1) - t i) * bspline_basis t t_end p i u) +
    (if t (i + p + 2) = t (i + 1) then 0
     else (t (i + p + 2) - u) / (t (i + p + 2) - t (i + 1)) * bspline_basis t t_end p (i + 1) u)

/-- At parameter 0 the only degree-`q` basis function that is 1 is the one at
index `d - q`; all others vanish (clamped left end). -/
lemma basis_at_zero (c d : ℕ) (hd1 : 1 ≤ d) (hdc : d < c) :
    ∀ q, q ≤ d → ∀ i, bspline_basis (knotAt c d) 1 q i 0 = if i = d - q then 1 else 0 := by
  intro q
  induction q with
  | zero =>
    intro _ i
    simp only [Nat.sub_zero]
    rw [bspline_basis]
    by_cases hi : i = d
    · rw [hi, if_pos, if_pos rfl]
      left
      refine ⟨le_of_eq ?_, knot_d_succ_pos c d hdc⟩
      rw [knotAt_mid c d d le_rfl (by omega)]
      simp
    · rw [if_neg, if_neg hi]
      rintro (⟨h1, h2⟩ | ⟨h0, -⟩)
      · have hz : knotAt c d i = 0 := le_antisymm h1 (knot_nonneg c d i hdc)
        have hiz := (knot_zero_iff c d i hdc).mp hz
        have hnot : ¬ (i + 1 ≤ d ∨ c + d + 1 ≤ i + 1) := fun hh =>
          (ne_of_gt h2) ((knot_zero_iff c d (i + 1) hdc).mpr hh)
        push_neg at hnot
        omega
      · norm_num at h0
  | succ q ih =>
    intro hq i
    have ihq := ih (by omega)
    simp only [bspline_basis]
    rw [ihq i, ihq (i + 1)]
    by_cases hi : i = d - (q + 1)
    · rw [hi]
      rw [if_neg (show ¬ d - (q + 1) = d - q by omega),
        if_pos (show d - (q + 1) + 1 = d - q by omega)]
      have e2 : d - (q + 1) + q + 2 = d + 1 := by omega
      have e3 : d - (q + 1) + 1 = d - q := by omega
      rw [e2, e3]
      have hz : knotAt c d (d - q) = 0 := (knot_zero_iff c d (d - q) hdc).mpr (Or.inl (by omega))
      have hpos := knot_d_succ_pos c d hdc
      rw [if_neg (show ¬ knotAt c d (d + 1) = knotAt c d (d - q) by
        rw [hz]; exact ne_of_gt hpos)]
      rw [hz, sub_zero, div_self (ne_of_gt hpos), one_mul]
      simp only [mul_zero, ite_self, zero_add]
      simp
    · rw [if_neg hi]
      rw [if_neg (show ¬ i + 1 = d - q by omega)]
      by_cases hieq : i = d - q
      · have hz : knotAt c d i = 0 := by
          rw [hieq]
          exact (knot_zero_iff c d (d - q) hdc).mpr (Or.inl (by omega))
        rw [if_pos hieq, hz]
        simp only [sub_zero, zero_div, zero_mul, mul_zero, ite_self, add_zero]
      · rw [if_neg hieq]
        simp only [mul_zero, ite_self, add_zero]

/-- At parameter 1 the only degree-`q` basis function that is 1 is the one at
index `c - 1`; all others vanish (clamped right end). -/
lemma basis_at_one (c d : ℕ) (hd1 : 1 ≤ d) (hdc : d < c) :
    ∀ q, q ≤ d → ∀ i, bspline_basis (knotAt c d) 1 q i 1 = if i = c - 1 then 1 else 0 := by
  intro q
  induction q with
  | zero =>
    intro _ i
    rw [bspline_basis]
    by_cases hi : i = c - 1
    · rw [hi, if_pos, if_pos rfl]
      right
      have e1 : c - 1 + 1 = c := by omega
      have hone : knotAt c d c = 1 := (knot_one_iff c d c hdc).mpr ⟨le_rfl, by omega⟩
      refine ⟨rfl, ?_, ?_⟩
      · rw [e1, hone]
        exact knot_c_pred_lt_one c d hd1 hdc
      · rw [e1]
        exact hone
    · rw [if_neg, if_neg hi]
      rintro (⟨h1, h2⟩ | ⟨-, hlt, hone⟩)
      · have := knot_le_one c d (i + 1) hdc
        linarith
      · have hrange := (knot_one_iff c d (i + 1) hdc).mp hone
        have : knotAt c d i = 1 := (knot_one_iff c d i hdc).mpr ⟨by omega, by omega⟩
        rw [this, hone] at hlt
        exact lt_irrefl 1 hlt
  | succ q ih =>
    intro hq i
    have ihq := ih (by omega)
    simp only [bspline_basis]
    rw [ihq i, ihq (i + 1)]
    by_cases hi : i = c - 1
    · rw [hi]
      rw [if_pos rfl, if_neg (show ¬ c - 1 + 1 = c - 1 by omega)]
      have e1 : c - 1 + q + 1 = c + q := by omega
      rw [e1]
      have hcq : knotAt c d (c + q) = 1 :=
        (knot_one_iff c d (c + q) hdc).mpr ⟨by omega, by omega⟩
      have hlt := knot_c_pred_lt_one c d hd1 hdc
      rw [hcq]
      rw [if_neg (show ¬ (1 : ℝ) = knotAt c d (c - 1) by
        intro hh
        rw [← hh] at hlt
        exact lt_irrefl 1 hlt)]
      rw [mul_one]
      have hden : (1 : ℝ) - knotAt c d (c - 1) ≠ 0 := by
        intro hh
        have : knotAt c d (c - 1) = 1 := by linarith
        linarith
      rw [div_self hden]
      simp only [mul_zero, ite_self, add_zero]
    · rw [if_neg hi]
      by_cases hieq : i + 1 = c - 1
      · rw [if_pos hieq]
        have e2 : i + q + 2 = c + q := by omega
        rw [e2]
        have hcq : knotAt c d (c + q) = 1 :=
          (knot_one_iff c d (c + q) hdc).mpr ⟨by omega, by omega⟩
        rw [hcq, sub_self, zero_div, zero_mul]
        simp [mul_zero, ite_self]
      · rw [if_neg hieq]
        simp only [mul_zero, ite_self, add_zero]

/-- Evaluation of the spline built by `generate_bspline` (and queried through
`get_trajectory_point`): the basis-weighted sum of the control points over
the knot vector of `generate_bspline`. -/
def bspline_point (cv : List (ℝ × ℝ)) (degree : ℕ) (u : ℝ) : ℝ × ℝ :=
  ∑ i ∈ Finset.range cv.length,
    bspline_basis (knotAt cv.length degree) 1 degree i u • cv.getD i (0, 0)

/-- C5: for at least two control points and any requested degree (clamped as
in the source to `[1, count-1]`), the built spline evaluates at parameter 0
to the first control point and at parameter 1 to the last. -/
theorem spline_boundary (cv : List (ℝ × ℝ)) (degree : ℤ) (h2 : 2 ≤ cv.length) :
    bspline_point cv (np_clip degree 1 ((cv.length : ℤ) - 1)).toNat 0 = cv.getD 0 (0, 0) ∧
    bspline_point cv (np_clip degree 1 ((cv.length : ℤ) - 1)).toNat 1 =
      cv.getD (cv.length - 1) (0, 0) := by
  set c := cv.length with hc
  set d := (np_clip degree 1 ((c : ℤ) - 1)).toNat with hd
  have hdb : 1 ≤ d ∧ d ≤ c - 1 := by
    rw [hd]
    simp only [np_clip]
    omega
  have hd1 : 1 ≤ d := hdb.1
  have hdc : d < c := by omega
  constructor
  · rw [bspline_point]
    have hzero := basis_at_zero c d hd1 hdc d le_rfl
    have hsummand : ∀ i ∈ Finset.range c,
        bspline_basis (knotAt c d) 1 d i 0 • cv.getD i (0, 0) =
          if i = 0 then cv.getD i (0, 0) else 0 := by
      intro i _
      rw [hzero i, Nat.sub_self]
      split_ifs with h
      · rw [one_smul]
      · rw [zero_smul]
    rw [Finset.sum_congr rfl hsummand, Finset.sum_ite_eq' (Finset.range c) 0,
      if_pos (Finset.mem_range.mpr (by omega))]
  · rw [bspline_point]
    have hone := basis_at_one c d hd1 hdc d le_rfl
    have hsummand : ∀ i ∈ Finset.range c,
        bspline_basis (knotAt c d) 1 d i 1 • cv.getD i (0, 0) =
          if i = c - 1 then cv.getD i (0, 0) else 0 := by
      intro i _
      rw [hone i]
      split_ifs with h
      · rw [one_smul]
      · rw [zero_smul]
    rw [Finset.sum_congr rfl hsummand, Finset.sum_ite_eq' (Finset.range c) (c - 1),
      if_pos (Finset.mem_range.mpr (by omega))]

/-- Embedding of `TrajectoryGenerator.generate_bspline`: clamp the degree
with `np.clip(degree, 1, count-1)` and build the spline and its first
derivative. The scipy calls are modelled by their validation: a clamped
degree below 1 (which happens exactly when `count < 2`) is rejected, by
`si.BSpline` for a negative degree and by `spline.derivative(1)` for degree
0; on success the spline is represented by its clamped degree and control
points, evaluated by `bspline_point`. -/
def generate_bspline (cv : List (ℝ × ℝ)) (degree : ℤ) :
    Except String (ℕ × List (ℝ × ℝ)) :=
  let count : ℤ := cv.length
  let degree_used := np_clip degree 1 (count - 1)
  if degree_used < 1 then
    Except.error "spline degree below 1, rejected by the library"
  else
    Except.ok (degree_used.toNat, cv)

/-- C8: with fewer than 2 control points the construction fails with an
error and produces no spline; with at least 2 control points it succeeds and
the degree actually used is the requested degree clamped into
`[1, count-1]`. -/
theorem build_input_validation (cv : List (ℝ × ℝ)) (degree : ℤ) :
    (cv.length < 2 → generate_bspline cv degree =
      Except.error "spline degree below 1, rejected by the library") ∧
    (2 ≤ cv.length →
      generate_bspline cv degree =
        Except.ok ((np_clip degree 1 ((cv.length : ℤ) - 1)).toNat, cv) ∧
      1 ≤ (np_clip degree 1 ((cv.length : ℤ) - 1)).toNat ∧
      (np_clip degree 1 ((cv.length : ℤ) - 1)).toNat ≤ cv.length - 1 ∧
      (1 ≤ degree → degree ≤ (cv.length : ℤ) - 1 →
        ((np_clip degree 1 ((cv.length : ℤ) - 1)).toNat : ℤ) = degree)) := by
  constructor
  · intro h
    rw [generate_bspline]
    rw [if_pos (show np_clip degree 1 ((cv.length : ℤ) - 1) < 1 by
      simp only [np_clip]; omega)]
  · intro h
    refine ⟨?_, ?_, ?_, ?_⟩
    · rw [generate_bspline]
      rw [if_neg (show ¬ np_clip degree 1 ((cv.length : ℤ) - 1) < 1 by
        simp only [np_clip]; omega)]
    · simp only [np_clip]
      omega
    · simp only [np_clip]
      omega
    · intro hd1 hd2
      simp only [np_clip]
      omega

/-- Closed witness for `spline_boundary` at control points `[(0,0),(1,2)]`
with requested degree 3. -/
theorem spline_boundary_witness :
    2 ≤ ([((0 : ℝ), (0 : ℝ)), ((1 : ℝ), (2 : ℝ))] : List (ℝ × ℝ)).length ∧
    (bspline_point [((0 : ℝ), (0 : ℝ)), ((1 : ℝ), (2 : ℝ))]
        (np_clip 3 1
          ((([((0 : ℝ), (0 : ℝ)), ((1 : ℝ), (2 : ℝ))] : List (ℝ × ℝ)).length : ℤ) - 1)).toNat 0 =
      ([((0 : ℝ), (0 : ℝ)), ((1 : ℝ), (2 : ℝ))] : List (ℝ × ℝ)).getD 0 (0, 0) ∧
    bspline_point [((0 : ℝ), (0 : ℝ)), ((1 : ℝ), (2 : ℝ))]
        (np_clip 3 1
          ((([((0 : ℝ), (0 : ℝ)), ((1 : ℝ), (2 : ℝ))] : List (ℝ × ℝ)).length : ℤ) - 1)).toNat 1 =
      ([((0 : ℝ), (0 : ℝ)), ((1 : ℝ), (2 : ℝ))] : List (ℝ × ℝ)).getD
        (([((0 : ℝ), (0 : ℝ)), ((1 : ℝ), (2 : ℝ))] : List (ℝ × ℝ)).length - 1) (0, 0)) :=
  ⟨by simp, spline_boundary [((0 : ℝ), (0 : ℝ)), ((1 : ℝ), (2 : ℝ))] 3 (by simp)⟩

/-- Closed witness for `build_input_validation`: a single control point is
rejected. -/
theorem build_input_validation_witness :
    ([((0 : ℝ), (0 : ℝ))] : List (ℝ × ℝ)).length < 2 ∧
    generate_bspline [((0 : ℝ), (0 : ℝ))] 3 =
      Except.error "spline degree below 1, rejected by the library" :=
  ⟨by simp, (build_input_validation [((0 : ℝ), (0 : ℝ))] 3).1 (by simp)⟩
